import Mathlib

/-!
Verification of the scoring engine of `app.js` (Job-Fetcher-app).

The JavaScript source is shallowly embedded below.  JS numbers are modelled
by exact arithmetic (`ℕ`/`ℤ`/`ℝ`): `Math.log` is `Real.log`, `Math.sqrt` is
`Real.sqrt`, `Math.round` is `jsRound` (floor of `x + 1/2`, which is the JS
rounding rule for the non-negative values arising here).  JS string/array
operations are modelled by the corresponding list operations.  The third-party
`natural` library supplies two pieces of behaviour that the source relies on:
`natural.WordTokenizer` (splits its input on every maximal run of characters
outside `[A-Za-z0-9_]` and drops empty fragments) and `natural.stopwords`
(the fixed English stop-word list), both embedded below.
-/

/- ===== Tokenizer (`cleanAndTokenize`, app.js lines 72-77) =====

`const lowered = text.replace(/[]+/g, ' ')
                     .replace(/[^a-zA-Z0-9 #+\-_.]/g, ' ').toLowerCase();`

The first `replace` uses an empty character class `[]`, which in JS matches
nothing at all, so it is a no-op and is not modelled.  The second replaces
every character outside the allowed set with a single space (it does not
delete it), and `toLowerCase` then lowercases; since every surviving
character is ASCII, per-character ASCII lowercasing (`Char.toLower`) agrees
with JS `toLowerCase`. -/

/-- Characters kept by the cleaning regex `[^a-zA-Z0-9 #+\-_.]` of app.js:74.
`Char.isAlpha`/`Char.isDigit` are exactly the ASCII ranges. -/
def allowedChar (c : Char) : Bool :=
  c.isAlpha || c.isDigit || c == ' ' || c == '#' || c == '+' || c == '-' || c == '_' || c == '.'

/-- The cleaned, lowercased character sequence of app.js:74. -/
def cleanChars (text : String) : List Char :=
  text.data.map (fun c => (if allowedChar c then c else ' ').toLower)

/-- A `\w` character of JS regexes: `[A-Za-z0-9_]`.  `natural.WordTokenizer`
splits its input on every maximal run of non-`\w` characters. -/
def isWordChar (c : Char) : Bool :=
  c.isAlpha || c.isDigit || c == '_'

/-- Splits a character list into the maximal runs of characters satisfying
`keep`, dropping empty fragments; `acc` holds the current run reversed. -/
def splitRunsAux (keep : Char → Bool) : List Char → List Char → List String
  | acc, [] => if acc = [] then [] else [String.mk acc.reverse]
  | acc, c :: cs =>
    if keep c then splitRunsAux keep (c :: acc) cs
    else if acc = [] then splitRunsAux keep [] cs
    else String.mk acc.reverse :: splitRunsAux keep [] cs

/-- Splits a character list into maximal runs of characters satisfying `keep`. -/
def splitRuns (keep : Char → Bool) (cs : List Char) : List String :=
  splitRunsAux keep [] cs

/-- The English stop-word list exported as `natural.stopwords` by the
`natural` package (app.js:70); single-character entries are irrelevant
downstream because of the `length > 2` filter. -/
def stopWords : List String :=
  ["about", "above", "after", "again", "all", "also", "am", "an", "and", "another",
   "any", "are", "as", "at", "be", "because", "been", "before", "being", "below",
   "between", "both", "but", "by", "came", "can", "cannot", "come", "could", "did",
   "do", "does", "doing", "during", "each", "few", "for", "from", "further", "get",
   "got", "has", "had", "he", "have", "her", "here", "him", "himself", "his", "how",
   "if", "in", "into", "is", "it", "its", "itself", "like", "make", "many", "me",
   "might", "more", "most", "much", "must", "my", "myself", "never", "now", "of", "on",
   "only", "or", "other", "our", "ours", "ourselves", "out", "over", "own", "said",
   "same", "see", "should", "since", "so", "some", "still", "such", "take", "than",
   "that", "the", "their", "theirs", "them", "themselves", "then", "there", "these",
   "they", "this", "those", "through", "to", "too", "under", "until", "up", "very",
   "was", "way", "we", "well", "were", "what", "where", "when", "which", "while",
   "who", "whom", "with", "would", "why", "you", "your", "yours", "yourself",
   "0", "1", "2", "3", "4", "5", "6", "7", "8", "9", "_"]

/-- `cleanAndTokenize` (app.js:72-77): guard falsy input, clean/lowercase,
tokenize with `natural.WordTokenizer`, keep tokens of length `> 2` that are
not stop words. -/
def cleanAndTokenize (text : String) : List String :=
  if text = "" then []
  else (splitRuns isWordChar (cleanChars text)).filter
    (fun t => decide (2 < t.length) && !(decide (t ∈ stopWords)))

/- ===== Keyword extraction (`extractKeywords`, app.js lines 82-99) ===== -/

/-- The curated domain vocabulary `ART_KEYWORDS` of app.js:83-87. -/
def ART_KEYWORDS : List String :=
  ["concept", "artist", "character", "2d", "illustration", "digital", "painting", "anatomy",
   "stylized", "environment", "sketch", "photoshop", "procreate", "color", "lighting",
   "render", "visual", "design", "composition", "story", "ideation"]

/-- Per-occurrence weight of a token (app.js:93): 4 for domain vocabulary, 1 otherwise. -/
def tokenWeight (t : String) : Nat :=
  if t ∈ ART_KEYWORDS then 4 else 1

/-- `freq[t] = (freq[t] || 0) + weight` on an insertion-ordered association
list: update the value in place if the key exists, else append the key. -/
def addWeight : List (String × Nat) → String → Nat → List (String × Nat)
  | [], t, w => [(t, w)]
  | (k, v) :: rest, t, w =>
    if k = t then (k, v + w) :: rest else (k, v) :: addWeight rest t w

/-- The `freq` object of app.js:90-95, as an association list in JS property
insertion order. -/
def buildFreq (tokens : List String) : List (String × Nat) :=
  tokens.foldl (fun m t => addWeight m t (tokenWeight t)) []

/-- Value lookup in the association list, 0 for a missing key. -/
def freqLookup : List (String × Nat) → String → Nat
  | [], _ => 0
  | (k, v) :: rest, t => if k = t then v else freqLookup rest t

/-- Decimal value of a digit string (most significant digit first). -/
def digitsVal (cs : List Char) : Nat :=
  cs.foldl (fun n c => n * 10 + (c.toNat - 48)) 0

/-- A string key that JS treats as an array index: the canonical decimal
numeral (digits only, no leading zero except for `"0"` itself) of an integer
`n` with `n < 2^32 - 1`.  `Object.entries` enumerates such keys first, in
ascending numeric order, before the remaining string keys in insertion
order. -/
def isArrayIndexKey (s : String) : Bool :=
  match s.data with
  | [] => false
  | c :: cs =>
    (c :: cs).all (fun d => d.isDigit) && (!(c == '0') || cs.isEmpty) &&
      decide (digitsVal (c :: cs) < 4294967295)

/-- Stable insertion of `x` into `l` for a descending sort by `key`: `x` goes
before the first element whose key is `≤ key x`, hence after every
strictly-greater key and before every equal key already present. -/
def insertKeyDesc (key : α → Int) (x : α) : List α → List α
  | [] => [x]
  | y :: ys => if key y ≤ key x then x :: y :: ys else y :: insertKeyDesc key x ys

/-- Stable descending sort by `key`.  ECMAScript 2019 requires
`Array.prototype.sort` to be stable, and a stable sort for a total preorder
produces a unique output, so any stable model is faithful; insertion sort is
used here. -/
def sortKeyDesc (key : α → Int) : List α → List α
  | [] => []
  | x :: xs => insertKeyDesc key x (sortKeyDesc key xs)

/-- `Object.entries(freq)` (app.js:97) under JS own-property enumeration
order: integer-index keys first in ascending numeric order, then the other
keys in insertion order. -/
def jsEntries (m : List (String × Nat)) : List (String × Nat) :=
  sortKeyDesc (fun e => -((digitsVal e.1.data : Int)))
      (m.filter (fun e => isArrayIndexKey e.1))
    ++ m.filter (fun e => !isArrayIndexKey e.1)

/-- The full ranking `Object.entries(freq).sort((a, b) => b[1] - a[1])`
of app.js:97, keys only. -/
def rankedKeywords (text : String) : List String :=
  (sortKeyDesc (fun e => (e.2 : Int)) (jsEntries (buildFreq (cleanAndTokenize text)))).map
    Prod.fst

/-- `extractKeywords` (app.js:82-99): `sorted.slice(0, limit).map(([term]) => term)`. -/
def extractKeywords (text : String) (limit : Nat) : List String :=
  (rankedKeywords text).take limit

/- ===== TF-IDF + cosine similarity (app.js lines 108-174) ===== -/

/-- Deduplication keeping the first occurrence of each element, the iteration
order of a JS `Set` built from a list (`new Set([...a, ...b])`, app.js:166);
`seen` accumulates the elements already emitted. -/
def firstDedupAux : List String → List String → List String
  | _, [] => []
  | seen, x :: xs =>
    if x ∈ seen then firstDedupAux seen xs else x :: firstDedupAux (x :: seen) xs

/-- `Array.from(new Set(l))`: the distinct elements of `l` in first-seen order. -/
def firstDedup (l : List String) : List String :=
  firstDedupAux [] l

/-- Document frequency of a term (app.js:116-121): the number of documents
containing it at least once. -/
def docFreq (docs : List (List String)) (t : String) : Nat :=
  (docs.filter (fun d => decide (t ∈ d))).length

/-- The `idf` map of `computeIdf` (app.js:115-127) as a total lookup:
`Math.log((N + 1) / (df + 1)) + 1` for terms occurring in some document, and
the `idf[term] || 0` fallback of app.js:135 for the rest. -/
noncomputable def idfLookup (docs : List (List String)) (t : String) : ℝ :=
  if docFreq docs t = 0 then 0
  else Real.log ((docs.length + 1) / (docFreq docs t + 1)) + 1

/-- `tfidfVector` (app.js:129-138): for each vocabulary term in order, raw
term frequency (`buildTermFreq`, a raw occurrence count) times IDF. -/
noncomputable def tfidfVector (docTokens : List String) (docs : List (List String))
    (vocab : List String) : List ℝ :=
  vocab.map (fun t => (docTokens.count t : ℝ) * idfLookup docs t)

/-- `dotProduct` (app.js:140-144): `for (let i = 0; i < a.length; i++)
s += a[i] * b[i]`.  The loop runs over the indices of `a` only, so when `a`
is shorter the trailing entries of `b` are silently ignored; out-of-range
reads of `b` (possible only when `a` is longer, which never happens in the
program: both callers pass vectors of equal length) are modelled as 0. -/
noncomputable def dotProduct (a b : List ℝ) : ℝ :=
  ∑ i ∈ Finset.range a.length, a.getD i 0 * b.getD i 0

/-- `magnitude` (app.js:146-150): `Math.sqrt` of the sum of squares. -/
noncomputable def magnitude (a : List ℝ) : ℝ :=
  Real.sqrt (∑ i ∈ Finset.range a.length, a.getD i 0 * a.getD i 0)

/-- `cosineSimilarity` (app.js:152-156): 0 when the product of magnitudes is
0, otherwise the normalized dot product.  There is no length validation. -/
noncomputable def cosineSimilarity (vecA vecB : List ℝ) : ℝ :=
  if magnitude vecA * magnitude vecB = 0 then 0
  else dotProduct vecA vecB / (magnitude vecA * magnitude vecB)

/-- JS `Math.round` for the non-negative arguments arising in this program:
round half up, i.e. the floor of `x + 1/2`. -/
noncomputable def jsRound (x : ℝ) : ℤ :=
  ⌊x + 1 / 2⌋

/-- The shared vocabulary of one pairwise comparison (app.js:166):
`Array.from(new Set([...resumeTokens, ...jobTokens]))`. -/
def pairVocab (resumeTokens jobTokens : List String) : List String :=
  firstDedup (resumeTokens ++ jobTokens)

/-- `semanticSimilarity` (app.js:158-174): short-circuit to 0 when either
token sequence is empty, otherwise TF-IDF vectors over the shared vocabulary,
cosine similarity, scaled to a rounded percentage. -/
noncomputable def semanticSimilarity (resumeText jobDescription : String) : ℤ :=
  let resumeTokens := cleanAndTokenize resumeText
  let jobTokens := cleanAndTokenize jobDescription
  if resumeTokens = [] ∨ jobTokens = [] then 0
  else
    let docs := [resumeTokens, jobTokens]
    let vocab := pairVocab resumeTokens jobTokens
    jsRound (cosineSimilarity (tfidfVector resumeTokens docs vocab)
      (tfidfVector jobTokens docs vocab) * 100)

/- ===== Hybrid scorer (app.js lines 181-196) and ranking (app.js 262-274) ===== -/

/-- `keywordMatchPercentage` (app.js:181-187): 0 for an empty keyword list,
otherwise the rounded percentage of job keywords found in the résumé token
set (`new Set(cleanAndTokenize(resumeText))`). -/
noncomputable def keywordMatchPercentage (resumeText : String)
    (jobKeywords : List String) : ℤ :=
  if jobKeywords = [] then 0
  else
    let resumeTokens := firstDedup (cleanAndTokenize resumeText)
    let matchCount := (jobKeywords.filter (fun k => decide (k ∈ resumeTokens))).length
    jsRound (((matchCount : ℝ) / jobKeywords.length) * 100)

/-- A stored job record as used by the scorer: `job.keywords || []` and
`job.description || ''` make both fields effectively total. -/
structure Job where
  keywords : List String
  description : String

/-- The score triple `{final, kwScore, semScore}` returned by
`finalMatchScore`. -/
structure ScoreTriple where
  final : ℤ
  kwScore : ℤ
  semScore : ℤ
deriving DecidableEq

/-- `finalMatchScore` (app.js:189-196) with the fixed weights
`weightKw = 0.4`, `weightSem = 0.6`. -/
noncomputable def finalMatchScore (resumeText : String) (job : Job) : ScoreTriple :=
  let kwScore := keywordMatchPercentage resumeText job.keywords
  let semScore := semanticSimilarity resumeText job.description
  ⟨jsRound ((kwScore : ℝ) * 0.4 + (semScore : ℝ) * 0.6), kwScore, semScore⟩

/-- One element of the `matches` array built by `app.post('/match')`
(app.js:262-273); only the fields relevant to ranking are modelled. -/
structure MatchResult where
  job : Job
  scores : ScoreTriple

/-- `storedJobs.map(job => ({... finalMatchScore(resumeText, job) ...}))`
(app.js:262-273). -/
noncomputable def matchEntries (resumeText : String) (jobs : List Job) : List MatchResult :=
  jobs.map (fun j => ⟨j, finalMatchScore resumeText j⟩)

/-- The ranking of `app.post('/match')` (app.js:274):
`.sort((a, b) => parseInt(b.matchScore) - parseInt(a.matchScore))`, where
`matchScore` is the string `` `${scores.final}%` `` and `parseInt` recovers
`scores.final`; a stable descending sort on the final score. -/
noncomputable def rankMatches (resumeText : String) (jobs : List Job) : List MatchResult :=
  sortKeyDesc (fun e => e.scores.final) (matchEntries resumeText jobs)

/- ===== Spec-side definitions (for refinement comparisons only) ===== -/

/-- Whitespace-run collapsing as the spec words it (`replace any run of
whitespace-like characters with a single space`); `prevWs` records whether
the previous emitted character was the collapsed space. -/
def collapseWsAux : Bool → List Char → List Char
  | _, [] => []
  | prevWs, c :: cs =>
    if c.isWhitespace then
      if prevWs then collapseWsAux true cs else ' ' :: collapseWsAux true cs
    else c :: collapseWsAux false cs

/-- Tokenizer following the words of spec section 4.1: collapse whitespace
runs, strip (delete) every disallowed character, lowercase, split on
whitespace, then apply the length and stop-word filters. -/
def cleanAndTokenizeSpec (text : String) : List String :=
  if text = "" then []
  else
    ((splitRuns (fun c => !c.isWhitespace)
        (((collapseWsAux false text.data).filter allowedChar).map Char.toLower)).filter
      (fun t => decide (2 < t.length) && !(decide (t ∈ stopWords))))

/-- Keyword extraction following the words of claim C5 for the tie-break:
identical to `extractKeywords` except that tied tokens keep the order in
which they were first encountered (the raw insertion order of `freq`),
with no special treatment of numeric keys. -/
def extractKeywordsSpecOrder (text : String) (limit : Nat) : List String :=
  ((sortKeyDesc (fun e => (e.2 : Int)) (buildFreq (cleanAndTokenize text))).take limit).map
    Prod.fst

/-- Keyword match percentage following the words of spec section 4.5:
`round(100 × matchedCount / jobKeywords.length)` with `matchedCount` the
number of job keywords occurring in the deduplicated résumé token set. -/
noncomputable def keywordMatchPercentageSpec (resumeText : String)
    (jobKeywords : List String) : ℤ :=
  if jobKeywords = [] then 0
  else
    jsRound (100 *
      ((jobKeywords.filter
          (fun k => decide (k ∈ firstDedup (cleanAndTokenize resumeText)))).length : ℝ) /
      jobKeywords.length)

/- ===== Helper lemmas: the stable descending sort ===== -/

theorem insertKeyDesc_perm (key : α → Int) (x : α) (l : List α) :
    List.Perm (insertKeyDesc key x l) (x :: l) := by
  induction l with
  | nil => simp [insertKeyDesc]
  | cons y ys ih =>
    by_cases h : key y ≤ key x
    · simp [insertKeyDesc, h]
    · simp only [insertKeyDesc, if_neg h]
      exact (ih.cons y).trans (List.Perm.swap x y ys)

theorem sortKeyDesc_perm (key : α → Int) (l : List α) :
    List.Perm (sortKeyDesc key l) l := by
  induction l with
  | nil => simp [sortKeyDesc]
  | cons x xs ih =>
    exact (insertKeyDesc_perm key x (sortKeyDesc key xs)).trans (ih.cons x)

theorem insertKeyDesc_pairwise (key : α → Int) (x : α) {l : List α}
    (hl : l.Pairwise (fun a b => key b ≤ key a)) :
    (insertKeyDesc key x l).Pairwise (fun a b => key b ≤ key a) := by
  induction l with
  | nil => simp [insertKeyDesc]
  | cons y ys ih =>
    rcases List.pairwise_cons.mp hl with ⟨hy, hys⟩
    by_cases h : key y ≤ key x
    · simp only [insertKeyDesc, if_pos h]
      refine List.pairwise_cons.mpr ⟨?_, hl⟩
      intro z hz
      rcases List.mem_cons.mp hz with rfl | hz
      · exact h
      · exact (hy z hz).trans h
    · simp only [insertKeyDesc, if_neg h]
      refine List.pairwise_cons.mpr ⟨?_, ih hys⟩
      intro z hz
      have hz2 := (insertKeyDesc_perm key x ys).mem_iff.mp hz
      rcases List.mem_cons.mp hz2 with rfl | hz2
      · exact le_of_not_le h
      · exact hy z hz2

theorem sortKeyDesc_pairwise (key : α → Int) (l : List α) :
    (sortKeyDesc key l).Pairwise (fun a b => key b ≤ key a) := by
  induction l with
  | nil => simp [sortKeyDesc]
  | cons x xs ih => exact insertKeyDesc_pairwise key x ih

theorem insertKeyDesc_filter_eq (key : α → Int) (x : α) (l : List α) {w : Int}
    (hx : key x = w) :
    (insertKeyDesc key x l).filter (fun e => key e == w) =
      x :: l.filter (fun e => key e == w) := by
  induction l with
  | nil => simp [insertKeyDesc, hx]
  | cons y ys ih =>
    by_cases h : key y ≤ key x
    · rw [insertKeyDesc, if_pos h]
      simp [List.filter_cons, hx]
    · have hyw : ¬ key y = w := by
        intro hyw
        exact h (le_of_eq (hyw.trans hx.symm))
      rw [insertKeyDesc, if_neg h]
      simp [List.filter_cons, hyw, ih]

theorem insertKeyDesc_filter_ne (key : α → Int) (x : α) (l : List α) {w : Int}
    (hx : ¬ key x = w) :
    (insertKeyDesc key x l).filter (fun e => key e == w) =
      l.filter (fun e => key e == w) := by
  induction l with
  | nil => simp [insertKeyDesc, hx]
  | cons y ys ih =>
    by_cases h : key y ≤ key x
    · simp [insertKeyDesc, h, List.filter_cons, hx]
    · simp [insertKeyDesc, if_neg h, List.filter_cons, ih]

theorem sortKeyDesc_filter (key : α → Int) (l : List α) (w : Int) :
    (sortKeyDesc key l).filter (fun e => key e == w) =
      l.filter (fun e => key e == w) := by
  induction l with
  | nil => simp [sortKeyDesc]
  | cons x xs ih =>
    by_cases hx : key x = w
    · rw [sortKeyDesc, insertKeyDesc_filter_eq key x _ hx, ih, List.filter_cons,
        if_pos (by simpa using hx)]
    · rw [sortKeyDesc, insertKeyDesc_filter_ne key x _ hx, ih, List.filter_cons,
        if_neg (by simpa using hx)]

/- ===== Helper lemmas: first-seen deduplication ===== -/

theorem mem_firstDedupAux (t : String) : ∀ (seen l : List String),
    t ∈ firstDedupAux seen l ↔ t ∈ l ∧ t ∉ seen := by
  intro seen l
  induction l generalizing seen with
  | nil => simp [firstDedupAux]
  | cons x xs ih =>
    by_cases h : x ∈ seen
    · rw [firstDedupAux, if_pos h, ih]
      constructor
      · rintro ⟨h1, h2⟩
        exact ⟨List.mem_cons_of_mem x h1, h2⟩
      · rintro ⟨h1, h2⟩
        rcases List.mem_cons.mp h1 with rfl | h1
        · exact absurd h h2
        · exact ⟨h1, h2⟩
    · rw [firstDedupAux, if_neg h]
      constructor
      · intro ht
        rcases List.mem_cons.mp ht with rfl | ht
        · exact ⟨List.mem_cons_self t xs, h⟩
        · rcases (ih (x :: seen)).mp ht with ⟨h1, h2⟩
          exact ⟨List.mem_cons_of_mem x h1,
            fun hs => h2 (List.mem_cons_of_mem x hs)⟩
      · rintro ⟨h1, h2⟩
        by_cases htx : t = x
        · exact htx ▸ List.mem_cons_self x _
        · rcases List.mem_cons.mp h1 with rfl | h1
          · exact absurd rfl htx
          · refine List.mem_cons_of_mem x ((ih (x :: seen)).mpr ⟨h1, ?_⟩)
            intro hs
            rcases List.mem_cons.mp hs with rfl | hs
            · exact htx rfl
            · exact h2 hs

theorem firstDedupAux_nodup : ∀ (seen l : List String), (firstDedupAux seen l).Nodup := by
  intro seen l
  induction l generalizing seen with
  | nil => simp [firstDedupAux]
  | cons x xs ih =>
    by_cases h : x ∈ seen
    · rw [firstDedupAux, if_pos h]
      exact ih seen
    · rw [firstDedupAux, if_neg h]
      refine List.nodup_cons.mpr ⟨?_, ih (x :: seen)⟩
      intro hx
      exact ((mem_firstDedupAux x (x :: seen) xs).mp hx).2 (List.mem_cons_self x seen)

theorem mem_firstDedup (t : String) (l : List String) : t ∈ firstDedup l ↔ t ∈ l := by
  rw [firstDedup, mem_firstDedupAux]
  simp

theorem firstDedup_nodup (l : List String) : (firstDedup l).Nodup :=
  firstDedupAux_nodup [] l

theorem firstDedupAux_pairwise_indexOf : ∀ (seen l : List String),
    (firstDedupAux seen l).Pairwise
      (fun x y => List.indexOf x l < List.indexOf y l) := by
  intro seen l
  induction l generalizing seen with
  | nil => simp [firstDedupAux]
  | cons a l ih =>
    by_cases h : a ∈ seen
    · rw [firstDedupAux, if_pos h]
      refine (ih seen).imp_of_mem ?_
      intro x y hx hy hxy
      have hxa : x ≠ a := by
        intro he
        exact ((mem_firstDedupAux x seen l).mp hx).2 (by rw [he]; exact h)
      have hya : y ≠ a := by
        intro he
        exact ((mem_firstDedupAux y seen l).mp hy).2 (by rw [he]; exact h)
      rw [List.indexOf_cons_ne l (Ne.symm hxa), List.indexOf_cons_ne l (Ne.symm hya)]
      exact Nat.succ_lt_succ hxy
    · rw [firstDedupAux, if_neg h]
      refine List.pairwise_cons.mpr ⟨?_, ?_⟩
      · intro y hy
        have hya : y ≠ a := by
          intro he
          exact ((mem_firstDedupAux y (a :: seen) l).mp hy).2
            (by rw [he]; exact List.mem_cons_self a seen)
        rw [List.indexOf_cons_self, List.indexOf_cons_ne l (Ne.symm hya)]
        exact Nat.succ_pos _
      · refine (ih (a :: seen)).imp_of_mem ?_
        intro x y hx hy hxy
        have hxa : x ≠ a := by
          intro he
          exact ((mem_firstDedupAux x (a :: seen) l).mp hx).2
            (by rw [he]; exact List.mem_cons_self a seen)
        have hya : y ≠ a := by
          intro he
          exact ((mem_firstDedupAux y (a :: seen) l).mp hy).2
            (by rw [he]; exact List.mem_cons_self a seen)
        rw [List.indexOf_cons_ne l (Ne.symm hxa), List.indexOf_cons_ne l (Ne.symm hya)]
        exact Nat.succ_lt_succ hxy

/- ===== Helper lemmas: the frequency object ===== -/

theorem freqLookup_addWeight (m : List (String × Nat)) (u : String) (w : Nat) (t : String) :
    freqLookup (addWeight m u w) t = freqLookup m t + if u = t then w else 0 := by
  induction m with
  | nil =>
    by_cases h : u = t <;> simp [addWeight, freqLookup, h]
  | cons e rest ih =>
    obtain ⟨k, v⟩ := e
    by_cases hk : k = u
    · subst hk
      rw [addWeight, if_pos rfl]
      by_cases ht : k = t
      · subst ht
        simp [freqLookup]
      · simp [freqLookup, ht, fun h => ht h]
    · rw [addWeight, if_neg hk]
      by_cases ht : k = t
      · subst ht
        have : ¬ u = k := fun h => hk h.symm
        simp [freqLookup, this]
      · simp [freqLookup, ht, ih]

theorem freqLookup_foldl (l : List String) : ∀ (m : List (String × Nat)) (t : String),
    freqLookup (l.foldl (fun m t => addWeight m t (tokenWeight t)) m) t =
      freqLookup m t + l.count t * tokenWeight t := by
  induction l with
  | nil => simp
  | cons u l ih =>
    intro m t
    rw [List.foldl_cons, ih, freqLookup_addWeight, List.count_cons]
    by_cases h : u = t
    · simp [h, Nat.add_mul, Nat.add_assoc, Nat.add_comm]
    · simp [h, fun hh => h (by simpa using hh)]

theorem freqLookup_buildFreq (tokens : List String) (t : String) :
    freqLookup (buildFreq tokens) t = tokens.count t * tokenWeight t := by
  rw [buildFreq, freqLookup_foldl]
  simp [freqLookup]

theorem mem_keys_addWeight (m : List (String × Nat)) (u : String) (w : Nat) (t : String) :
    t ∈ (addWeight m u w).map Prod.fst ↔ t ∈ m.map Prod.fst ∨ t = u := by
  induction m with
  | nil => simp [addWeight]
  | cons e rest ih =>
    obtain ⟨k, v⟩ := e
    by_cases hk : k = u
    · subst hk
      rw [addWeight, if_pos rfl]
      simp only [List.map_cons, List.mem_cons]
      constructor
      · rintro (rfl | h)
        · exact Or.inr rfl
        · exact Or.inl (Or.inr h)
      · rintro ((rfl | h) | rfl)
        · exact Or.inl rfl
        · exact Or.inr h
        · exact Or.inl rfl
    · rw [addWeight, if_neg hk]
      simp only [List.map_cons, List.mem_cons, ih]
      tauto

theorem nodup_keys_addWeight (m : List (String × Nat)) (u : String) (w : Nat)
    (hm : (m.map Prod.fst).Nodup) : ((addWeight m u w).map Prod.fst).Nodup := by
  induction m with
  | nil => simp [addWeight]
  | cons e rest ih =>
    obtain ⟨k, v⟩ := e
    rw [List.map_cons, List.nodup_cons] at hm
    by_cases hk : k = u
    · subst hk
      rw [addWeight, if_pos rfl]
      simpa [List.nodup_cons] using hm
    · rw [addWeight, if_neg hk]
      rw [List.map_cons, List.nodup_cons]
      refine ⟨?_, ih hm.2⟩
      rw [mem_keys_addWeight]
      rintro (h | rfl)
      · exact hm.1 h
      · exact hk rfl

theorem nodup_keys_foldl (l : List String) : ∀ (m : List (String × Nat)),
    (m.map Prod.fst).Nodup →
      ((l.foldl (fun m t => addWeight m t (tokenWeight t)) m).map Prod.fst).Nodup := by
  induction l with
  | nil => simp
  | cons u l ih =>
    intro m hm
    rw [List.foldl_cons]
    exact ih _ (nodup_keys_addWeight m u (tokenWeight u) hm)

theorem nodup_keys_buildFreq (tokens : List String) :
    ((buildFreq tokens).map Prod.fst).Nodup :=
  nodup_keys_foldl tokens [] (by simp)

theorem mem_keys_foldl (l : List String) : ∀ (m : List (String × Nat)) (t : String),
    t ∈ ((l.foldl (fun m t => addWeight m t (tokenWeight t)) m).map Prod.fst) ↔
      t ∈ m.map Prod.fst ∨ t ∈ l := by
  induction l with
  | nil => simp
  | cons u l ih =>
    intro m t
    rw [List.foldl_cons, ih, mem_keys_addWeight]
    simp only [List.mem_cons]
    tauto

theorem mem_keys_buildFreq (tokens : List String) (t : String) :
    t ∈ (buildFreq tokens).map Prod.fst ↔ t ∈ tokens := by
  rw [buildFreq, mem_keys_foldl]
  simp

theorem freqLookup_eq_of_mem : ∀ (m : List (String × Nat)),
    (m.map Prod.fst).Nodup → ∀ (k : String) (v : Nat), (k, v) ∈ m → freqLookup m k = v := by
  intro m
  induction m with
  | nil => simp
  | cons e rest ih =>
    obtain ⟨k0, v0⟩ := e
    intro hm k v hkv
    rw [List.map_cons, List.nodup_cons] at hm
    rcases List.mem_cons.mp hkv with h | h
    · rw [Prod.mk.injEq] at h
      obtain ⟨rfl, rfl⟩ := h
      simp [freqLookup]
    · have hk : ¬ k0 = k := by
        intro hk
        subst hk
        exact hm.1 (by exact List.mem_map.mpr ⟨(k0, v), h, rfl⟩)
      rw [freqLookup, if_neg hk]
      exact ih hm.2 k v h

theorem jsEntries_perm (m : List (String × Nat)) : List.Perm (jsEntries m) m := by
  rw [jsEntries]
  exact (List.Perm.append_right _
    (sortKeyDesc_perm (fun e => -((digitsVal e.1.data : Int))) _)).trans
    (List.filter_append_perm (fun e => isArrayIndexKey e.1) m)

/- ===== Helper lemmas: token shape ===== -/

theorem splitRunsAux_chars (keep : Char → Bool) : ∀ (cs acc : List Char),
    (∀ c ∈ acc, keep c = true) →
      ∀ t ∈ splitRunsAux keep acc cs, ∀ c ∈ t.data, keep c = true := by
  intro cs
  induction cs with
  | nil =>
    intro acc hacc t ht c hc
    rw [splitRunsAux] at ht
    by_cases h : acc = []
    · simp [h] at ht
    · rw [if_neg h] at ht
      rcases List.mem_singleton.mp ht with rfl
      exact hacc c (by simpa using hc)
  | cons d cs ih =>
    intro acc hacc t ht c hc
    rw [splitRunsAux] at ht
    by_cases hd : keep d = true
    · rw [if_pos hd] at ht
      refine ih (d :: acc) ?_ t ht c hc
      intro e he
      rcases List.mem_cons.mp he with rfl | he
      · exact hd
      · exact hacc e he
    · rw [if_neg hd] at ht
      by_cases h : acc = []
      · rw [if_pos h] at ht
        exact ih [] (by simp) t ht c hc
      · rw [if_neg h] at ht
        rcases List.mem_cons.mp ht with rfl | ht
        · exact hacc c (by simpa using hc)
        · exact ih [] (by simp) t ht c hc

theorem cleanAndTokenize_token_shape (text : String) :
    ∀ t ∈ cleanAndTokenize text,
      2 < t.length ∧ t ∉ stopWords ∧ ∀ c ∈ t.data, isWordChar c = true := by
  intro t ht
  rw [cleanAndTokenize] at ht
  by_cases h : text = ""
  · simp [h] at ht
  · rw [if_neg h] at ht
    rcases List.mem_filter.mp ht with ⟨ht, hcond⟩
    simp only [Bool.and_eq_true, decide_eq_true_eq, Bool.not_eq_true', decide_eq_false_iff_not]
      at hcond
    exact ⟨hcond.1, hcond.2,
      splitRunsAux_chars isWordChar (cleanChars text) [] (by simp) t ht⟩

/- ===== Helper lemmas: vectors, cosine, rounding, IDF ===== -/

theorem magnitude_nonneg (a : List ℝ) : 0 ≤ magnitude a :=
  Real.sqrt_nonneg _

theorem getD_nonneg {l : List ℝ} (hl : ∀ x ∈ l, 0 ≤ x) (i : ℕ) : 0 ≤ l.getD i 0 := by
  by_cases h : i < l.length
  · rw [List.getD_eq_getElem l 0 h]
    exact hl _ (List.getElem_mem h)
  · rw [List.getD_eq_getElem?_getD, List.getElem?_eq_none (by omega)]
    exact le_refl 0

theorem dotProduct_nonneg {a b : List ℝ} (ha : ∀ x ∈ a, 0 ≤ x) (hb : ∀ x ∈ b, 0 ≤ x) :
    0 ≤ dotProduct a b :=
  Finset.sum_nonneg fun i _ => mul_nonneg (getD_nonneg ha i) (getD_nonneg hb i)

theorem magnitude_sq_form (a : List ℝ) :
    magnitude a = Real.sqrt (∑ i ∈ Finset.range a.length, a.getD i 0 ^ 2) := by
  rw [magnitude]
  congr 1
  exact Finset.sum_congr rfl fun i _ => (pow_two _).symm

theorem dotProduct_le_mul_magnitude {a b : List ℝ} (hlen : a.length = b.length) :
    dotProduct a b ≤ magnitude a * magnitude b := by
  rw [dotProduct, magnitude_sq_form, magnitude_sq_form, ← hlen]
  exact Real.sum_mul_le_sqrt_mul_sqrt (Finset.range a.length)
    (fun i => a.getD i 0) (fun i => b.getD i 0)

theorem cosineSimilarity_nonneg {a b : List ℝ} (ha : ∀ x ∈ a, 0 ≤ x)
    (hb : ∀ x ∈ b, 0 ≤ x) : 0 ≤ cosineSimilarity a b := by
  rw [cosineSimilarity]
  split
  · exact le_refl 0
  · exact div_nonneg (dotProduct_nonneg ha hb)
      (mul_nonneg (magnitude_nonneg a) (magnitude_nonneg b))

theorem cosineSimilarity_le_one {a b : List ℝ} (hlen : a.length = b.length) :
    cosineSimilarity a b ≤ 1 := by
  rw [cosineSimilarity]
  split
  · exact zero_le_one
  · rename_i h
    have hpos : 0 < magnitude a * magnitude b :=
      lt_of_le_of_ne (mul_nonneg (magnitude_nonneg a) (magnitude_nonneg b)) (Ne.symm h)
    exact (div_le_one hpos).mpr (dotProduct_le_mul_magnitude hlen)

theorem jsRound_nonneg {x : ℝ} (hx : 0 ≤ x) : 0 ≤ jsRound x := by
  rw [jsRound]
  exact Int.le_floor.mpr (by push_cast; linarith)

theorem jsRound_le {x : ℝ} (n : ℤ) (hx : x ≤ (n : ℝ)) : jsRound x ≤ n := by
  rw [jsRound]
  have h : ⌊x + 1 / 2⌋ < n + 1 := Int.floor_lt.mpr (by push_cast; linarith)
  omega

theorem docFreq_le_length (docs : List (List String)) (t : String) :
    docFreq docs t ≤ docs.length :=
  List.length_filter_le _ _

theorem idfLookup_ratio_ge_one (docs : List (List String)) (t : String) :
    (1 : ℝ) ≤ ((docs.length : ℝ) + 1) / ((docFreq docs t : ℝ) + 1) := by
  have hn : (docFreq docs t : ℝ) ≤ (docs.length : ℝ) :=
    Nat.cast_le.mpr (docFreq_le_length docs t)
  rw [one_le_div (by positivity)]
  linarith

theorem idfLookup_nonneg (docs : List (List String)) (t : String) :
    0 ≤ idfLookup docs t := by
  rw [idfLookup]
  split
  · exact le_refl 0
  · have := Real.log_nonneg (idfLookup_ratio_ge_one docs t)
    linarith

theorem idfLookup_pos (docs : List (List String)) (t : String)
    (h : ¬ docFreq docs t = 0) : 0 < idfLookup docs t := by
  rw [idfLookup, if_neg h]
  have := Real.log_nonneg (idfLookup_ratio_ge_one docs t)
  linarith

theorem tfidfVector_nonneg (d : List String) (docs : List (List String))
    (vocab : List String) : ∀ x ∈ tfidfVector d docs vocab, 0 ≤ x := by
  intro x hx
  rw [tfidfVector] at hx
  rcases List.mem_map.mp hx with ⟨t, _, rfl⟩
  exact mul_nonneg (Nat.cast_nonneg _) (idfLookup_nonneg docs t)

theorem semanticSimilarity_nonneg_le (a b : String) :
    0 ≤ semanticSimilarity a b ∧ semanticSimilarity a b ≤ 100 := by
  rw [semanticSimilarity]
  by_cases h : cleanAndTokenize a = [] ∨ cleanAndTokenize b = []
  · simp only [if_pos h]
    exact ⟨le_refl 0, by norm_num⟩
  · simp only [if_neg h]
    have hlen : (tfidfVector (cleanAndTokenize a)
          [cleanAndTokenize a, cleanAndTokenize b]
          (pairVocab (cleanAndTokenize a) (cleanAndTokenize b))).length =
        (tfidfVector (cleanAndTokenize b)
          [cleanAndTokenize a, cleanAndTokenize b]
          (pairVocab (cleanAndTokenize a) (cleanAndTokenize b))).length := by
      rw [tfidfVector, tfidfVector, List.length_map, List.length_map]
    have hcos1 := cosineSimilarity_le_one hlen
    have hA := tfidfVector_nonneg (cleanAndTokenize a)
      [cleanAndTokenize a, cleanAndTokenize b]
      (pairVocab (cleanAndTokenize a) (cleanAndTokenize b))
    have hB := tfidfVector_nonneg (cleanAndTokenize b)
      [cleanAndTokenize a, cleanAndTokenize b]
      (pairVocab (cleanAndTokenize a) (cleanAndTokenize b))
    have hcos0 := cosineSimilarity_nonneg hA hB
    constructor
    · exact jsRound_nonneg (by nlinarith)
    · exact jsRound_le 100 (by push_cast; nlinarith)

theorem keywordMatchPercentage_nonneg_le (r : String) (kws : List String) :
    0 ≤ keywordMatchPercentage r kws ∧ keywordMatchPercentage r kws ≤ 100 := by
  rw [keywordMatchPercentage]
  by_cases h : kws = []
  · simp only [if_pos h]
    exact ⟨le_refl 0, by norm_num⟩
  · simp only [if_neg h]
    have hlen : 0 < (kws.length : ℝ) := by
      have : kws.length ≠ 0 := fun hl => h (List.length_eq_zero.mp hl)
      positivity
    have hle : ((kws.filter
          (fun k => decide (k ∈ firstDedup (cleanAndTokenize r)))).length : ℝ) ≤
        (kws.length : ℝ) := Nat.cast_le.mpr (List.length_filter_le _ _)
    have hratio1 : ((kws.filter
          (fun k => decide (k ∈ firstDedup (cleanAndTokenize r)))).length : ℝ) /
        (kws.length : ℝ) ≤ 1 := (div_le_one hlen).mpr hle
    have hratio0 : 0 ≤ ((kws.filter
          (fun k => decide (k ∈ firstDedup (cleanAndTokenize r)))).length : ℝ) /
        (kws.length : ℝ) := by positivity
    constructor
    · exact jsRound_nonneg (by nlinarith)
    · exact jsRound_le 100 (by push_cast; nlinarith)

/- ===== Helper lemmas: symmetry of the pairwise comparison ===== -/

theorem dotProduct_map (v : List α) (f g : α → ℝ) :
    dotProduct (v.map f) (v.map g) = (v.map fun t => f t * g t).sum := by
  induction v with
  | nil => simp [dotProduct]
  | cons x xs ih =>
    have hstep : dotProduct ((x :: xs).map f) ((x :: xs).map g) =
        dotProduct (xs.map f) (xs.map g) + f x * g x := by
      simp only [dotProduct, List.map_cons, List.length_cons, List.length_map,
        Finset.sum_range_succ', List.getD_cons_succ, List.getD_cons_zero]
    rw [hstep, ih, List.map_cons, List.sum_cons]
    ring

theorem magnitude_map (v : List α) (f : α → ℝ) :
    magnitude (v.map f) = Real.sqrt ((v.map fun t => f t * f t).sum) := by
  rw [show magnitude (v.map f) = Real.sqrt (dotProduct (v.map f) (v.map f)) from rfl,
    dotProduct_map]

theorem docFreq_swap (ra rb : List String) (t : String) :
    docFreq [ra, rb] t = docFreq [rb, ra] t := by
  by_cases h1 : t ∈ ra <;> by_cases h2 : t ∈ rb <;>
    simp [docFreq, List.filter_cons, h1, h2]

theorem idfLookup_swap (ra rb : List String) (t : String) :
    idfLookup [ra, rb] t = idfLookup [rb, ra] t := by
  rw [idfLookup, idfLookup, docFreq_swap]
  simp

theorem dotProduct_comm {a b : List ℝ} (h : a.length = b.length) :
    dotProduct a b = dotProduct b a := by
  rw [dotProduct, dotProduct, h]
  exact Finset.sum_congr rfl fun i _ => mul_comm _ _

theorem cosineSimilarity_comm {a b : List ℝ} (h : a.length = b.length) :
    cosineSimilarity a b = cosineSimilarity b a := by
  rw [cosineSimilarity, cosineSimilarity, dotProduct_comm h,
    mul_comm (magnitude b) (magnitude a)]

theorem cosineSimilarity_map_perm {v1 v2 : List α} (h : List.Perm v1 v2) (f g : α → ℝ) :
    cosineSimilarity (v1.map f) (v1.map g) = cosineSimilarity (v2.map f) (v2.map g) := by
  have hd : dotProduct (v1.map f) (v1.map g) = dotProduct (v2.map f) (v2.map g) := by
    rw [dotProduct_map, dotProduct_map]
    exact (h.map _).sum_eq
  have hmf : magnitude (v1.map f) = magnitude (v2.map f) := by
    rw [magnitude_map, magnitude_map]
    congr 1
    exact (h.map _).sum_eq
  have hmg : magnitude (v1.map g) = magnitude (v2.map g) := by
    rw [magnitude_map, magnitude_map]
    congr 1
    exact (h.map _).sum_eq
  rw [cosineSimilarity, cosineSimilarity, hd, hmf, hmg]

theorem pairVocab_perm (ra rb : List String) :
    List.Perm (pairVocab ra rb) (pairVocab rb ra) := by
  rw [pairVocab, pairVocab,
    List.perm_ext_iff_of_nodup (firstDedup_nodup _) (firstDedup_nodup _)]
  intro t
  rw [mem_firstDedup, mem_firstDedup, List.mem_append, List.mem_append]
  tauto

theorem cosineSimilarity_self {v : List ℝ} (h : ∃ x ∈ v, x ≠ 0) :
    cosineSimilarity v v = 1 := by
  have hs0 : 0 < ∑ i ∈ Finset.range v.length, v.getD i 0 * v.getD i 0 := by
    obtain ⟨x, hxv, hx0⟩ := h
    obtain ⟨⟨i, hi⟩, hget⟩ := List.mem_iff_get.mp hxv
    refine Finset.sum_pos' (fun j _ => mul_self_nonneg _) ⟨i, Finset.mem_range.mpr hi, ?_⟩
    have hx : v.getD i 0 = x := by
      rw [List.getD_eq_getElem v 0 hi]
      simpa using hget
    rw [hx]
    exact mul_self_pos.mpr hx0
  have hmag : magnitude v * magnitude v =
      ∑ i ∈ Finset.range v.length, v.getD i 0 * v.getD i 0 :=
    Real.mul_self_sqrt (le_of_lt hs0)
  rw [cosineSimilarity, if_neg (by rw [hmag]; exact ne_of_gt hs0), dotProduct, hmag]
  exact div_self (ne_of_gt hs0)

theorem jsRound_intCast (n : ℤ) : jsRound ((n : ℝ)) = n := by
  rw [jsRound, Int.floor_int_add]
  norm_num

/- ===== Claim theorems ===== -/

/-- Claim C1: for every resume text and job record, `finalMatchScore` returns
a triple whose components are integers (by construction, type `ℤ`) in
`[0, 100]`, and `final = round(0.4 * kwScore + 0.6 * semScore)`. -/
theorem C1_final_score_triple (resumeText : String) (job : Job) :
    0 ≤ (finalMatchScore resumeText job).kwScore ∧
      (finalMatchScore resumeText job).kwScore ≤ 100 ∧
      0 ≤ (finalMatchScore resumeText job).semScore ∧
      (finalMatchScore resumeText job).semScore ≤ 100 ∧
      0 ≤ (finalMatchScore resumeText job).final ∧
      (finalMatchScore resumeText job).final ≤ 100 ∧
      (finalMatchScore resumeText job).final =
        jsRound (0.4 * ((finalMatchScore resumeText job).kwScore : ℝ) +
          0.6 * ((finalMatchScore resumeText job).semScore : ℝ)) := by
  obtain ⟨hk0, hk1⟩ := keywordMatchPercentage_nonneg_le resumeText job.keywords
  obtain ⟨hs0, hs1⟩ := semanticSimilarity_nonneg_le resumeText job.description
  have hkw : (finalMatchScore resumeText job).kwScore =
      keywordMatchPercentage resumeText job.keywords := rfl
  have hsem : (finalMatchScore resumeText job).semScore =
      semanticSimilarity resumeText job.description := rfl
  have hfin : (finalMatchScore resumeText job).final =
      jsRound ((keywordMatchPercentage resumeText job.keywords : ℝ) * 0.4 +
        (semanticSimilarity resumeText job.description : ℝ) * 0.6) := rfl
  have hk0R : (0 : ℝ) ≤ (keywordMatchPercentage resumeText job.keywords : ℝ) := by
    exact_mod_cast hk0
  have hk1R : (keywordMatchPercentage resumeText job.keywords : ℝ) ≤ 100 := by
    exact_mod_cast hk1
  have hs0R : (0 : ℝ) ≤ (semanticSimilarity resumeText job.description : ℝ) := by
    exact_mod_cast hs0
  have hs1R : (semanticSimilarity resumeText job.description : ℝ) ≤ 100 := by
    exact_mod_cast hs1
  refine ⟨hkw ▸ hk0, hkw ▸ hk1, hsem ▸ hs0, hsem ▸ hs1, ?_, ?_, ?_⟩
  · rw [hfin]
    exact jsRound_nonneg (by nlinarith)
  · rw [hfin]
    exact jsRound_le 100 (by push_cast; nlinarith)
  · rw [hfin, hkw, hsem]
    congr 1
    ring

/-- Claim C2: the `/match` ranking produces one scored entry per job
(a permutation of the mapped list), sorted descending on the final score,
and ties keep the input order: filtering the output at any fixed final
score yields exactly the corresponding subsequence of the input. -/
theorem C2_ranking_stable_sorted (resumeText : String) (jobs : List Job) :
    List.Perm (rankMatches resumeText jobs) (matchEntries resumeText jobs) ∧
      (rankMatches resumeText jobs).Pairwise
        (fun x y => y.scores.final ≤ x.scores.final) ∧
      ∀ s : ℤ, (rankMatches resumeText jobs).filter (fun e => e.scores.final == s) =
        (matchEntries resumeText jobs).filter (fun e => e.scores.final == s) := by
  refine ⟨?_, ?_, fun s => ?_⟩ <;> rw [rankMatches]
  · exact sortKeyDesc_perm (fun e => e.scores.final) (matchEntries resumeText jobs)
  · exact sortKeyDesc_pairwise (fun e => e.scores.final) (matchEntries resumeText jobs)
  · exact sortKeyDesc_filter (fun e => e.scores.final) (matchEntries resumeText jobs) s

/-- Claim C7: every degenerate input produces the deterministic result 0:
`semanticSimilarity` is 0 whenever either text tokenizes to the empty
sequence, `keywordMatchPercentage` is 0 on an empty keyword list, and
`cosineSimilarity` is 0 whenever either vector has zero magnitude. -/
theorem C7_degenerate_inputs_zero (a b c : String) (v w : List ℝ)
    (ha : cleanAndTokenize a = []) (hv : magnitude v = 0) :
    semanticSimilarity a b = 0 ∧ semanticSimilarity b a = 0 ∧
      keywordMatchPercentage c [] = 0 ∧
      cosineSimilarity v w = 0 ∧ cosineSimilarity w v = 0 := by
  refine ⟨?_, ?_, ?_, ?_, ?_⟩
  · simp [semanticSimilarity, ha]
  · simp [semanticSimilarity, ha]
  · simp [keywordMatchPercentage]
  · rw [cosineSimilarity, if_pos (by rw [hv, zero_mul])]
  · rw [cosineSimilarity, if_pos (by rw [hv, mul_zero])]

theorem C7_degenerate_inputs_zero_witness :
    (cleanAndTokenize "" = [] ∧ magnitude [] = 0) ∧
      (semanticSimilarity "" "painting job" = 0 ∧
        semanticSimilarity "painting job" "" = 0 ∧
        keywordMatchPercentage "resume text" [] = 0 ∧
        cosineSimilarity [] [(1 : ℝ)] = 0 ∧ cosineSimilarity [(1 : ℝ)] [] = 0) :=
  ⟨⟨by decide, by simp [magnitude]⟩,
    C7_degenerate_inputs_zero "" "painting job" "resume text" [] [(1 : ℝ)]
      (by decide) (by simp [magnitude])⟩

/-- Claim C9: cosine self-similarity is maximal: `cosineSimilarity v v = 1`
for every vector `v` with at least one non-zero entry. -/
theorem C9_cosine_self_similarity (v : List ℝ) (h : ∃ x ∈ v, x ≠ 0) :
    cosineSimilarity v v = 1 :=
  cosineSimilarity_self h

theorem C9_cosine_self_similarity_witness :
    (∃ x ∈ [(1 : ℝ)], x ≠ 0) ∧ cosineSimilarity [(1 : ℝ)] [(1 : ℝ)] = 1 :=
  ⟨⟨1, List.mem_singleton.mpr rfl, one_ne_zero⟩,
    C9_cosine_self_similarity [(1 : ℝ)] ⟨1, List.mem_singleton.mpr rfl, one_ne_zero⟩⟩

/-- Claim C10: `semanticSimilarity` is symmetric in its two arguments. -/
theorem C10_semantic_similarity_symmetric (a b : String) :
    semanticSimilarity a b = semanticSimilarity b a := by
  simp only [semanticSimilarity]
  by_cases h : cleanAndTokenize a = [] ∨ cleanAndTokenize b = []
  · rw [if_pos h, if_pos h.symm]
  · rw [if_neg h, if_neg (fun hc => h hc.symm)]
    have hidf : ∀ t, idfLookup [cleanAndTokenize b, cleanAndTokenize a] t =
        idfLookup [cleanAndTokenize a, cleanAndTokenize b] t :=
      fun t => (idfLookup_swap (cleanAndTokenize a) (cleanAndTokenize b) t).symm
    simp only [tfidfVector, hidf]
    rw [cosineSimilarity_map_perm
      (pairVocab_perm (cleanAndTokenize b) (cleanAndTokenize a)) _ _]
    rw [cosineSimilarity_comm (by rw [List.length_map, List.length_map])]

/-- Claim C3: for a non-empty keyword list, `keywordMatchPercentage` equals
`round(100 × matchedCount / jobKeywords.length)` where `matchedCount` counts
the job keywords occurring in the deduplicated résumé token set; moreover the
spec's concrete scenario evaluates to 100. -/
theorem C3_keyword_match_formula (resumeText : String) (jobKeywords : List String)
    (h : jobKeywords ≠ []) :
    keywordMatchPercentage resumeText jobKeywords =
      keywordMatchPercentageSpec resumeText jobKeywords ∧
      keywordMatchPercentage
        "I am a concept artist specializing in stylized character illustration and digital painting"
        ["concept", "artist", "character", "illustration", "digital", "painting"] = 100 := by
  constructor
  · simp only [keywordMatchPercentage, keywordMatchPercentageSpec, if_neg h]
    congr 1
    ring
  · have hne : (["concept", "artist", "character", "illustration", "digital",
        "painting"] : List String) ≠ [] := by decide
    simp only [keywordMatchPercentage, if_neg hne]
    have hm : ((["concept", "artist", "character", "illustration", "digital",
        "painting"] : List String).filter
        (fun k => decide (k ∈ firstDedup (cleanAndTokenize
          "I am a concept artist specializing in stylized character illustration and digital painting")))).length
        = 6 := by decide
    have hl : (["concept", "artist", "character", "illustration", "digital",
        "painting"] : List String).length = 6 := by decide
    rw [hm, hl]
    have h6 : ((6 : ℕ) : ℝ) / ((6 : ℕ) : ℝ) * 100 = ((100 : ℤ) : ℝ) := by norm_num
    rw [h6, jsRound_intCast]

theorem C3_keyword_match_formula_witness :
    ((["concept", "artist", "character", "illustration", "digital", "painting"] :
        List String) ≠ []) ∧
      (keywordMatchPercentage
          "I am a concept artist specializing in stylized character illustration and digital painting"
          ["concept", "artist", "character", "illustration", "digital", "painting"] =
        keywordMatchPercentageSpec
          "I am a concept artist specializing in stylized character illustration and digital painting"
          ["concept", "artist", "character", "illustration", "digital", "painting"] ∧
        keywordMatchPercentage
          "I am a concept artist specializing in stylized character illustration and digital painting"
          ["concept", "artist", "character", "illustration", "digital", "painting"] = 100) :=
  ⟨by decide, C3_keyword_match_formula
    "I am a concept artist specializing in stylized character illustration and digital painting"
    ["concept", "artist", "character", "illustration", "digital", "painting"] (by decide)⟩

/-- Claim C4 counterexample: the tokenizer does not split on whitespace only.
`natural.WordTokenizer` splits on every character outside `[A-Za-z0-9_]`, so
the `+` signs kept by the cleaning step still separate tokens: on
`"c++ engineer"` the code produces `["engineer"]` (the fragment `"c"` is then
dropped by the length filter), while the algorithm worded in the claim would
produce `["c++", "engineer"]`. -/
theorem C4_tokenizer_cex :
    cleanAndTokenize "c++ engineer" = ["engineer"] ∧
      cleanAndTokenizeSpec "c++ engineer" = ["c++", "engineer"] ∧
      cleanAndTokenize "c++ engineer" ≠ cleanAndTokenizeSpec "c++ engineer" :=
  ⟨by decide, by decide, by decide⟩

/-- Claim C4 amended: the cleaning step replaces every character outside the
allowed set with a space and lowercases, but the subsequent word tokenizer
splits on every character outside `[A-Za-z0-9_]`, so the retained punctuation
(`#`, `+`, `-`, `.`) never appears inside a token: every produced token has
length `> 2`, is not a stop word, and consists solely of word characters;
empty input yields the empty sequence rather than an error. -/
theorem C4_tokenizer_amended (text t : String) (ht : t ∈ cleanAndTokenize text) :
    2 < t.length ∧ t ∉ stopWords ∧ (∀ c ∈ t.data, isWordChar c = true) ∧
      cleanAndTokenize "" = [] := by
  obtain ⟨h1, h2, h3⟩ := cleanAndTokenize_token_shape text t ht
  exact ⟨h1, h2, h3, rfl⟩

theorem C4_tokenizer_amended_witness :
    ("engineer" ∈ cleanAndTokenize "c++ engineer") ∧
      (2 < ("engineer" : String).length ∧ ("engineer" : String) ∉ stopWords ∧
        (∀ c ∈ ("engineer" : String).data, isWordChar c = true) ∧
        cleanAndTokenize "" = []) :=
  ⟨by decide, C4_tokenizer_amended "c++ engineer" "engineer" (by decide)⟩

/-- Claim C8 counterexample: `cosineSimilarity` performs no length check and
does not fail on mismatched vectors: called on `[1]` and `[3, 4]` (lengths 1
and 2) it silently ignores the trailing entry of the second vector in the dot
product and returns the number `3/5`. -/
theorem C8_cosine_mismatched_cex :
    ([(1 : ℝ)].length ≠ ([3, 4] : List ℝ).length) ∧
      cosineSimilarity [(1 : ℝ)] [3, 4] = 3 / 5 := by
  constructor
  · simp
  · have h1 : magnitude [(1 : ℝ)] = 1 := by
      rw [magnitude]
      norm_num [Finset.sum_range_one, List.getD]
    have h2 : magnitude ([3, 4] : List ℝ) = 5 := by
      rw [magnitude]
      have hs : ∑ i ∈ Finset.range ([3, 4] : List ℝ).length,
          (([3, 4] : List ℝ).getD i 0) * (([3, 4] : List ℝ).getD i 0) = 25 := by
        norm_num [Finset.sum_range_succ, Finset.sum_range_one, List.getD]
      rw [hs, show (25 : ℝ) = 5 ^ 2 by norm_num, Real.sqrt_sq (by norm_num)]
    have h3 : dotProduct [(1 : ℝ)] [3, 4] = 3 := by
      rw [dotProduct]
      norm_num [Finset.sum_range_one, List.getD]
    rw [cosineSimilarity, h1, h2, h3]
    norm_num

/-- Claim C8 amended: `cosineSimilarity` has no length validation.  When the
first vector is no longer than the second, the dot-product loop runs over the
first vector's indices only, so the trailing entries of the second vector are
silently ignored and a numeric value is returned instead of an error. -/
theorem C8_cosine_mismatched_amended (a b : List ℝ) (h : a.length ≤ b.length) :
    dotProduct a b = dotProduct a (b.take a.length) ∧
      cosineSimilarity a b = (if magnitude a * magnitude b = 0 then 0
        else dotProduct a (b.take a.length) / (magnitude a * magnitude b)) := by
  have hdot : dotProduct a b = dotProduct a (b.take a.length) := by
    rw [dotProduct, dotProduct]
    refine Finset.sum_congr rfl fun i hi => ?_
    rw [Finset.mem_range] at hi
    congr 1
    rw [List.getD_eq_getElem?_getD, List.getD_eq_getElem?_getD, List.getElem?_take,
      if_pos hi]
  exact ⟨hdot, by rw [cosineSimilarity, hdot]⟩

theorem C8_cosine_mismatched_amended_witness :
    ([(1 : ℝ)].length ≤ ([3, 4, 9] : List ℝ).length) ∧
      (dotProduct [(1 : ℝ)] [3, 4, 9] =
        dotProduct [(1 : ℝ)] (([3, 4, 9] : List ℝ).take [(1 : ℝ)].length) ∧
        cosineSimilarity [(1 : ℝ)] [3, 4, 9] =
          (if magnitude [(1 : ℝ)] * magnitude ([3, 4, 9] : List ℝ) = 0 then 0
            else dotProduct [(1 : ℝ)] (([3, 4, 9] : List ℝ).take [(1 : ℝ)].length) /
              (magnitude [(1 : ℝ)] * magnitude ([3, 4, 9] : List ℝ)))) :=
  ⟨by simp, C8_cosine_mismatched_amended [(1 : ℝ)] [3, 4, 9] (by simp)⟩

/-- Claim C5 counterexample: ties are not broken by first-encounter order.
The `freq` object's keys are enumerated by `Object.entries` with integer-index
keys first, so on `"art 123"` (both tokens of weight 1) the code returns
`["123", "art"]` although `"art"` was encountered first; the claim's
tie-break rule would give `["art", "123"]`. -/
theorem C5_extract_keywords_cex :
    extractKeywords "art 123" 2 = ["123", "art"] ∧
      extractKeywordsSpecOrder "art 123" 2 = ["art", "123"] ∧
      extractKeywords "art 123" 2 ≠ extractKeywordsSpecOrder "art 123" 2 :=
  ⟨by decide, by decide, by decide⟩

/-- Claim C5 amended: `extractKeywords` accumulates per-token weights of 4
per occurrence for domain-vocabulary tokens and 1 otherwise, and returns the
first `limit` distinct tokens sorted by descending accumulated weight; ties
are broken by the JS own-property enumeration order of the frequency object
(keys that are canonical array indices first, in ascending numeric order,
then the remaining keys in first-encounter order), which coincides with
first-encounter order only when no token is a canonical numeric string.  The
spec's extraction scenario ranks `"design"` (weight 16) first. -/
theorem C5_extract_keywords_amended (text : String) (limit : Nat) :
    (∀ t : String, freqLookup (buildFreq (cleanAndTokenize text)) t =
        (cleanAndTokenize text).count t * tokenWeight t) ∧
      (rankedKeywords text).Nodup ∧
      (∀ t : String, t ∈ rankedKeywords text ↔ t ∈ cleanAndTokenize text) ∧
      (rankedKeywords text).Pairwise (fun x y =>
        freqLookup (buildFreq (cleanAndTokenize text)) y ≤
          freqLookup (buildFreq (cleanAndTokenize text)) x) ∧
      (∀ w : Int,
        (sortKeyDesc (fun e => (e.2 : Int))
            (jsEntries (buildFreq (cleanAndTokenize text)))).filter
            (fun e => (e.2 : Int) == w) =
          (jsEntries (buildFreq (cleanAndTokenize text))).filter
            (fun e => (e.2 : Int) == w)) ∧
      extractKeywords text limit = (rankedKeywords text).take limit ∧
      extractKeywords "concept concept artist artist artist design design design design" 2 =
        ["design", "artist"] := by
  have hperm : List.Perm
      (sortKeyDesc (fun e => (e.2 : Int)) (jsEntries (buildFreq (cleanAndTokenize text))))
      (buildFreq (cleanAndTokenize text)) :=
    (sortKeyDesc_perm _ _).trans (jsEntries_perm _)
  have hpermKeys : List.Perm (rankedKeywords text)
      ((buildFreq (cleanAndTokenize text)).map Prod.fst) := by
    rw [rankedKeywords]
    exact hperm.map Prod.fst
  refine ⟨fun t => freqLookup_buildFreq _ t, ?_, ?_, ?_,
    fun w => sortKeyDesc_filter _ _ w, rfl, by decide⟩
  · exact hpermKeys.nodup_iff.mpr (nodup_keys_buildFreq _)
  · intro t
    rw [hpermKeys.mem_iff, mem_keys_buildFreq]
  · rw [rankedKeywords, List.pairwise_map]
    refine (sortKeyDesc_pairwise (fun e : String × Nat => (e.2 : Int)) _).imp_of_mem ?_
    intro e1 e2 h1 h2 hle
    have m1 : e1 ∈ buildFreq (cleanAndTokenize text) := hperm.subset h1
    have m2 : e2 ∈ buildFreq (cleanAndTokenize text) := hperm.subset h2
    have v1 : freqLookup (buildFreq (cleanAndTokenize text)) e1.1 = e1.2 :=
      freqLookup_eq_of_mem _ (nodup_keys_buildFreq _) e1.1 e1.2
        (by rw [Prod.mk.eta]; exact m1)
    have v2 : freqLookup (buildFreq (cleanAndTokenize text)) e2.1 = e2.2 :=
      freqLookup_eq_of_mem _ (nodup_keys_buildFreq _) e2.1 e2.2
        (by rw [Prod.mk.eta]; exact m2)
    rw [v1, v2]
    exact_mod_cast hle

/-- Claim C6: in each pairwise TF-IDF computation the vocabulary is the set
of distinct tokens of the two documents in first-seen order; each term's IDF
equals `ln((N+1)/(df+1)) + 1` with `N = 2` and `df ∈ {1, 2}` the number of
the two documents containing the term; this IDF is strictly positive; and
each vector entry is the raw occurrence count times the IDF, in vocabulary
order. -/
theorem C6_tfidf_pair_computation (a b t : String)
    (ht : t ∈ pairVocab (cleanAndTokenize a) (cleanAndTokenize b)) :
    (pairVocab (cleanAndTokenize a) (cleanAndTokenize b)).Nodup ∧
      (pairVocab (cleanAndTokenize a) (cleanAndTokenize b)).Pairwise
        (fun x y => List.indexOf x (cleanAndTokenize a ++ cleanAndTokenize b) <
          List.indexOf y (cleanAndTokenize a ++ cleanAndTokenize b)) ∧
      (∀ u : String, u ∈ pairVocab (cleanAndTokenize a) (cleanAndTokenize b) ↔
        u ∈ cleanAndTokenize a ++ cleanAndTokenize b) ∧
      1 ≤ docFreq [cleanAndTokenize a, cleanAndTokenize b] t ∧
      docFreq [cleanAndTokenize a, cleanAndTokenize b] t ≤ 2 ∧
      idfLookup [cleanAndTokenize a, cleanAndTokenize b] t =
        Real.log (((2 : ℝ) + 1) /
          ((docFreq [cleanAndTokenize a, cleanAndTokenize b] t : ℝ) + 1)) + 1 ∧
      0 < idfLookup [cleanAndTokenize a, cleanAndTokenize b] t ∧
      tfidfVector (cleanAndTokenize a) [cleanAndTokenize a, cleanAndTokenize b]
          (pairVocab (cleanAndTokenize a) (cleanAndTokenize b)) =
        (pairVocab (cleanAndTokenize a) (cleanAndTokenize b)).map
          (fun u => ((cleanAndTokenize a).count u : ℝ) *
            idfLookup [cleanAndTokenize a, cleanAndTokenize b] u) ∧
      tfidfVector (cleanAndTokenize b) [cleanAndTokenize a, cleanAndTokenize b]
          (pairVocab (cleanAndTokenize a) (cleanAndTokenize b)) =
        (pairVocab (cleanAndTokenize a) (cleanAndTokenize b)).map
          (fun u => ((cleanAndTokenize b).count u : ℝ) *
            idfLookup [cleanAndTokenize a, cleanAndTokenize b] u) := by
  have hmem : t ∈ cleanAndTokenize a ++ cleanAndTokenize b :=
    (mem_firstDedup t _).mp ht
  have hdf : 1 ≤ docFreq [cleanAndTokenize a, cleanAndTokenize b] t ∧
      docFreq [cleanAndTokenize a, cleanAndTokenize b] t ≤ 2 := by
    by_cases h1 : t ∈ cleanAndTokenize a <;> by_cases h2 : t ∈ cleanAndTokenize b
    · simp [docFreq, List.filter_cons, h1, h2]
    · simp [docFreq, List.filter_cons, h1, h2]
    · simp [docFreq, List.filter_cons, h1, h2]
    · rcases List.mem_append.mp hmem with h | h
      · exact absurd h h1
      · exact absurd h h2
  have hdf0 : ¬ docFreq [cleanAndTokenize a, cleanAndTokenize b] t = 0 := by omega
  refine ⟨firstDedup_nodup _, firstDedupAux_pairwise_indexOf [] _,
    fun u => mem_firstDedup u _, hdf.1, hdf.2, ?_,
    idfLookup_pos _ _ hdf0, rfl, rfl⟩
  rw [idfLookup, if_neg hdf0]
  norm_num

theorem C6_tfidf_pair_computation_witness :
    ("dog" ∈ pairVocab (cleanAndTokenize "cat dog") (cleanAndTokenize "dog bird")) ∧
      0 < idfLookup [cleanAndTokenize "cat dog", cleanAndTokenize "dog bird"] "dog" :=
  ⟨by decide,
    (C6_tfidf_pair_computation "cat dog" "dog bird" "dog" (by decide)).2.2.2.2.2.2.1⟩
